import Mathlib

/-!
Verification development for the depthflow market-microstructure monitor.

The relevant TypeScript modules are embedded shallowly:

* `src/tracker.ts` — `LevelTracker.recordUpdate` / move counters;
* `src/bybit.ts` — `BybitOrderbook.applyUpdates` and `sortLevels`
  (incremental order-book updates with `size = 0` deletions);
* `src/mexc.ts` — `MexcOrderbook.applySnapshot` (full-snapshot diffing),
  `OutlierSpanTracker.update` / `recordTrade` / span closing;
* the metrics module — `countBins`, `countOutliers`, `computeMetrics`;
* the engine module — `computeZScoreOutliers` (`OUTLIER_Z = 4`),
  `compareSide` / `computeLargeMoves`.

Numbers (prices, sizes, notionals, z-statistics) are modelled as `ℚ`,
timestamps as `ℤ`.  JavaScript `Map` values are modelled as association
lists in insertion order (`jget`, `jset`, `jdelete`, `jhas` below), which
matches `Map` semantics exactly when keys are numbers or strings.  The
z-score comparison `(s − μ)/σ ≥ t` (with `σ = √variance` irrational in
general) is encoded by the exact equivalent square comparison `zGE`; the
lemma `zGE_iff_real` proves the encoding correct against `Real.sqrt`.
-/

/-- JavaScript `Map.has`: does an association list contain the key? -/
def jhas {α β : Type} [DecidableEq α] (m : List (α × β)) (k : α) : Bool :=
  m.any (fun p => decide (p.1 = k))

/-- JavaScript `Map.get`: first (hence unique) binding of the key. -/
def jget {α β : Type} [DecidableEq α] (m : List (α × β)) (k : α) : Option β :=
  (m.find? (fun p => decide (p.1 = k))).map (fun p => p.2)

/-- JavaScript `Map.set`: replace the binding in place if the key exists,
append at the end otherwise. -/
def jset {α β : Type} [DecidableEq α] (m : List (α × β)) (k : α) (v : β) :
    List (α × β) :=
  if jhas m k then m.map (fun p => if p.1 = k then (k, v) else p)
  else m ++ [(k, v)]

/-- JavaScript `Map.delete`: drop the binding of the key. -/
def jdelete {α β : Type} [DecidableEq α] (m : List (α × β)) (k : α) :
    List (α × β) :=
  m.filter (fun p => decide (p.1 ≠ k))

/-- `Side` from `src/types.ts`. -/
inductive Side : Type
  | bids
  | asks
deriving DecidableEq, Repr

/-- `SideMoveStats` from `src/types.ts`: per-side delta counters. -/
structure SideMoveStats where
  adds : ℕ
  changes : ℕ
  removals : ℕ
  sizeDelta : ℚ
deriving DecidableEq, Repr

/-- `MoveStats` from `src/types.ts`. -/
structure MoveStats where
  bids : SideMoveStats
  asks : SideMoveStats
deriving DecidableEq, Repr

/-- Select the per-side counters of a `MoveStats`. -/
def MoveStats.get (m : MoveStats) : Side → SideMoveStats
  | Side.bids => m.bids
  | Side.asks => m.asks

/-- Replace the per-side counters of a `MoveStats`. -/
def MoveStats.put (m : MoveStats) : Side → SideMoveStats → MoveStats
  | Side.bids, s => { m with bids := s }
  | Side.asks, s => { m with asks := s }

/-- `emptySideStats()` from `src/tracker.ts`. -/
def emptySideStats : SideMoveStats := ⟨0, 0, 0, 0⟩

/-- The `LevelTracker` state from `src/tracker.ts`: the `levels` map keyed
by `side:price` and the accumulated `stats`. -/
structure LevelTracker where
  levels : List ((Side × ℚ) × ℚ)
  stats : MoveStats
deriving Repr

/-- A freshly constructed `LevelTracker`. -/
def emptyTracker : LevelTracker :=
  ⟨[], ⟨emptySideStats, emptySideStats⟩⟩

/-- `LevelTracker.recordUpdate(side, price, nextSize, prevSize)` from
`src/tracker.ts`, with the three guarded branches in source order. -/
def LevelTracker.recordUpdate (t : LevelTracker) (side : Side) (price : ℚ)
    (nextSize : ℚ) (prevSize : Option ℚ) : LevelTracker :=
  let key := (side, price)
  let s := t.stats.get side
  match prevSize with
  | none =>
      if 0 < nextSize then
        { levels := jset t.levels key nextSize,
          stats := t.stats.put side
            { s with adds := s.adds + 1, sizeDelta := s.sizeDelta + nextSize } }
      else t
  | some prev =>
      if nextSize = 0 then
        { levels := jdelete t.levels key,
          stats := t.stats.put side
            { s with removals := s.removals + 1,
                     sizeDelta := s.sizeDelta + prev } }
      else if nextSize ≠ prev then
        { levels := jset t.levels key nextSize,
          stats := t.stats.put side
            { s with changes := s.changes + 1,
                     sizeDelta := s.sizeDelta + |nextSize - prev| } }
      else t

/-- `sortLevels` shared by `src/bybit.ts` and `src/mexc.ts`: sort a book
map by price (descending for bids, ascending for asks) and keep the top
`depth` levels. -/
def sortLevels (m : List (ℚ × ℚ)) (side : Side) (depth : ℕ) :
    List (ℚ × ℚ) :=
  (m.mergeSort (fun a b =>
      match side with
      | Side.bids => decide (b.1 ≤ a.1)
      | Side.asks => decide (a.1 ≤ b.1))).take depth

namespace BybitOrderbook

/-- One `[price, size]` step of `BybitOrderbook.applyUpdates` from
`src/bybit.ts`: `size = 0` deletes the entry, any other size is stored;
the transition is recorded in the tracker with the stored previous size. -/
def applyUpdate (book : List (ℚ × ℚ)) (t : LevelTracker) (side : Side)
    (u : ℚ × ℚ) : List (ℚ × ℚ) × LevelTracker :=
  let prevSize := jget book u.1
  let book2 := if u.2 = 0 then jdelete book u.1 else jset book u.1 u.2
  (book2, t.recordUpdate side u.1 u.2 prevSize)

/-- `BybitOrderbook.applyUpdates` from `src/bybit.ts`: fold the update
list over one side of the book state. -/
def applyUpdates (book : List (ℚ × ℚ)) (t : LevelTracker) (side : Side)
    (updates : List (ℚ × ℚ)) : List (ℚ × ℚ) × LevelTracker :=
  updates.foldl (fun acc u => applyUpdate acc.1 acc.2 side u) (book, t)

end BybitOrderbook

namespace MexcOrderbook

/-- `MexcOrderbook.applySnapshot` from `src/mexc.ts`: rebuild the side
from the full snapshot (skipping non-positive sizes), recording each
level against its previous size, then emit a `nextSize = 0` removal for
every previously known price that is no longer present. -/
def applySnapshot (prevMap : List (ℚ × ℚ)) (t : LevelTracker) (side : Side)
    (snapshot : List (ℚ × ℚ)) : List (ℚ × ℚ) × LevelTracker :=
  let step1 := snapshot.foldl
    (fun (acc : List (ℚ × ℚ) × LevelTracker) lvl =>
      if lvl.2 ≤ 0 then acc
      else
        (jset acc.1 lvl.1 lvl.2,
         acc.2.recordUpdate side lvl.1 lvl.2 (jget prevMap lvl.1)))
    ([], t)
  let t2 := prevMap.foldl
    (fun tr p =>
      if jhas step1.1 p.1 then tr
      else tr.recordUpdate side p.1 0 (some p.2))
    step1.2
  (step1.1, t2)

end MexcOrderbook

/-- Population mean of the sizes (`mean` in `computeZScoreOutliers` and
`countOutliers`); `[] ↦ 0` by rational division by zero, matching the
guard `levels.length === 0` in both callers. -/
def popMean (sizes : List ℚ) : ℚ := sizes.sum / sizes.length

/-- Population variance of the sizes (`variance` in
`computeZScoreOutliers` and `countOutliers`). -/
def popVariance (sizes : List ℚ) : ℚ :=
  ((sizes.map (fun s => (s - popMean sizes) ^ 2)).sum) / sizes.length

/-- The test `(s − μ)/σ ≥ t` with `σ = √v`, encoded without square roots
as `s − μ ≥ 0 ∧ t²·v ≤ (s − μ)²` so that it is decidable over `ℚ`; for
`0 ≤ t` and `0 < v` this is exactly the source's float comparison
`zScore >= t` read over the reals (`zGE_iff_real` below). -/
def zGE (s mu v t : ℚ) : Bool :=
  decide (0 ≤ s - mu) && decide (t ^ 2 * v ≤ (s - mu) ^ 2)

/-- `const OUTLIER_Z = 4` from the engine module. -/
def OUTLIER_Z : ℚ := 4

/-- `computeZScoreOutliers` from the engine module, projected to the
fields the detector logic depends on: given a side's `[price, size]`
levels and the venue mid, return the levels kept by the z-score filter.
Empty side or `mid ≤ 0` or zero standard deviation yield no outliers
(`σ = 0 ↔ variance = 0` since the variance is non-negative).  The
enrichment context copied verbatim onto each record (book snapshot, best
bid/ask, spread, imbalance, depths, microprice, level rank, vols) does
not influence selection and is omitted. -/
def computeZScoreOutliers (levels : List (ℚ × ℚ)) (mid : ℚ) :
    List (ℚ × ℚ) :=
  if levels.length = 0 ∨ mid ≤ 0 then []
  else
    let sizes := levels.map (fun l => l.2)
    let mean := popMean sizes
    let v := popVariance sizes
    if v = 0 then []
    else levels.filter (fun l => zGE l.2 mean v OUTLIER_Z)

/-- `const Z_SCORE_THRESHOLD = 4` from the metrics module. -/
def Z_SCORE_THRESHOLD : ℚ := 4

/-- `countOutliers` from the metrics module: the count of sizes whose
z-score is at least `Z_SCORE_THRESHOLD`, zero when the side is empty or
the standard deviation is zero. -/
def countOutliers (levels : List (ℚ × ℚ)) : ℕ :=
  if levels.length = 0 then 0
  else
    let sizes := levels.map (fun l => l.2)
    let v := popVariance sizes
    if v = 0 then 0
    else sizes.countP (fun s => zGE s (popMean sizes) v Z_SCORE_THRESHOLD)

/-- The bucket a distance falls into: the first index `i` with
`distance ≤ bins[i]`, and the overflow bucket `bins.length` when no bin
qualifies — the `placed` flag logic of `countBins` in the metrics
module. -/
def binIndex (bins : List ℚ) (d : ℚ) : ℕ :=
  match bins with
  | [] => 0
  | b :: bs => if d ≤ b then 0 else binIndex bs d + 1

/-- `countBins` from the metrics module: starting from `bins.length + 1`
zeroed counters, bump the bucket of each distance. -/
def countBins (distances bins : List ℚ) : List ℕ :=
  distances.foldl
    (fun counts d =>
      counts.set (binIndex bins d) (counts.getD (binIndex bins d) 0 + 1))
    (List.replicate (bins.length + 1) 0)

/-- `LevelMetrics` from `src/types.ts`. -/
structure LevelMetrics where
  price : ℚ
  size : ℚ
  notional : ℚ
  bpsFromMid : ℚ
deriving DecidableEq, Repr

/-- The per-level distances `|price − mid|/mid·10⁴` of
`computeSideMetrics` in the metrics module. -/
def sideDistances (levels : List (ℚ × ℚ)) (mid : ℚ) : List ℚ :=
  levels.map (fun l => |l.1 - mid| / mid * 10000)

/-- `totalNotional = Σ price·size` of `computeSideMetrics`. -/
def sideTotalNotional (levels : List (ℚ × ℚ)) : ℚ :=
  (levels.map (fun l => l.1 * l.2)).sum

/-- The up-to-five large levels of `computeSideMetrics`: levels with
`notional ≥ baseMmNotional`, sorted descending by notional, truncated. -/
def sideLargeLevels (levels : List (ℚ × ℚ)) (mid baseMmNotional : ℚ) :
    List LevelMetrics :=
  ((levels.filterMap (fun l =>
      if baseMmNotional ≤ l.1 * l.2 then
        some ⟨l.1, l.2, l.1 * l.2, |l.1 - mid| / mid * 10000⟩
      else none)).mergeSort
        (fun a b => decide (b.notional ≤ a.notional))).take 5

/-- `MetricsPoint` from `src/types.ts`, without the wall-clock `ts` and
the engine-added optional large-move fields. -/
structure MetricsPoint where
  symbol : String
  mid : ℚ
  bestBid : ℚ
  bestAsk : ℚ
  depth : ℕ
  baseMmNotional : ℚ
  totalNotionalBid : ℚ
  totalNotionalAsk : ℚ
  distanceBinsBps : List ℚ
  distanceBinCountsBid : List ℕ
  distanceBinCountsAsk : List ℕ
  maxDistanceBpsBid : ℚ
  maxDistanceBpsAsk : ℚ
  avgDistanceBpsBid : ℚ
  avgDistanceBpsAsk : ℚ
  outlierCountBid : ℕ
  outlierCountAsk : ℕ
  largeLevelsBid : List LevelMetrics
  largeLevelsAsk : List LevelMetrics
  moveStats : MoveStats
deriving Repr

/-- `computeMetrics` from the metrics module: `none` when either side is
empty, otherwise the per-tick `MetricsPoint` with
`mid = (bestBid + bestAsk)/2` taken from the heads of the sorted
sides. -/
def computeMetrics (symbol : String) (bids asks : List (ℚ × ℚ))
    (baseMmNotional : ℚ) (bins : List ℚ) (moveStats : MoveStats) :
    Option MetricsPoint :=
  match bids, asks with
  | [], _ => none
  | _, [] => none
  | b0 :: _, a0 :: _ =>
    let bestBid := b0.1
    let bestAsk := a0.1
    let mid := (bestBid + bestAsk) / 2
    some
      { symbol := symbol
        mid := mid
        bestBid := bestBid
        bestAsk := bestAsk
        depth := bids.length
        baseMmNotional := baseMmNotional
        totalNotionalBid := sideTotalNotional bids
        totalNotionalAsk := sideTotalNotional asks
        distanceBinsBps := bins
        distanceBinCountsBid := countBins (sideDistances bids mid) bins
        distanceBinCountsAsk := countBins (sideDistances asks mid) bins
        maxDistanceBpsBid := (sideDistances bids mid).foldl max 0
        maxDistanceBpsAsk := (sideDistances asks mid).foldl max 0
        avgDistanceBpsBid :=
          if bids.length = 0 then 0
          else (sideDistances bids mid).sum / bids.length
        avgDistanceBpsAsk :=
          if asks.length = 0 then 0
          else (sideDistances asks mid).sum / asks.length
        outlierCountBid := countOutliers bids
        outlierCountAsk := countOutliers asks
        largeLevelsBid := sideLargeLevels bids mid baseMmNotional
        largeLevelsAsk := sideLargeLevels asks mid baseMmNotional
        moveStats := moveStats }

/-- `LevelMove` from `src/types.ts`. -/
structure LevelMove where
  price : ℚ
  prevSize : ℚ
  nextSize : ℚ
  deltaSize : ℚ
  notionalDelta : ℚ
  bpsFromMid : ℚ
deriving DecidableEq, Repr

/-- `prevMap.get(price) ?? 0` in `compareSide`: the JS `Map` built from
the previous side keeps the last binding of a duplicated price. -/
def prevSizeOf (prev : List (ℚ × ℚ)) (price : ℚ) : ℚ :=
  ((prev.reverse.find? (fun p => decide (p.1 = price))).map
    (fun p => p.2)).getD 0

/-- `windowLevels` in `compareSide`: next-book levels within
`windowBps` of mid. -/
def windowLevelCount (next : List (ℚ × ℚ)) (mid windowBps : ℚ) : ℕ :=
  (next.filter (fun l => decide (|l.1 - mid| / mid * 10000 ≤ windowBps))).length

/-- `minNotional = max(baseMmNotional / max(1, windowLevels),
notionalFloor)` in `compareSide`. -/
def minNotionalOf (next : List (ℚ × ℚ))
    (mid baseMmNotional windowBps notionalFloor : ℚ) : ℚ :=
  max (baseMmNotional / max 1 (windowLevelCount next mid windowBps : ℚ))
    notionalFloor

/-- `compareSide` from the engine module: scan the next book's levels,
keep those whose size changed and whose `|Δsize|·price` meets the
qualification threshold, and sort descending by notional delta. -/
def compareSide (prev next : List (ℚ × ℚ))
    (mid baseMmNotional windowBps notionalFloor : ℚ) : List LevelMove :=
  let minNotional := minNotionalOf next mid baseMmNotional windowBps notionalFloor
  let moves := next.filterMap (fun l =>
    let prevSize := prevSizeOf prev l.1
    let deltaSize := l.2 - prevSize
    if deltaSize = 0 then none
    else
      let notionalDelta := |deltaSize| * l.1
      if notionalDelta < minNotional then none
      else some ⟨l.1, prevSize, l.2, deltaSize, notionalDelta,
        |l.1 - mid| / mid * 10000⟩)
  moves.mergeSort (fun a b => decide (b.notionalDelta ≤ a.notionalDelta))

/-- `computeLargeMoves` from the engine module: `compareSide` on both
sides, with an absent previous book replaced by empty sides. -/
def computeLargeMoves (prev : Option (List (ℚ × ℚ) × List (ℚ × ℚ)))
    (next : List (ℚ × ℚ) × List (ℚ × ℚ))
    (mid baseMmNotional windowBps notionalFloor : ℚ) :
    List LevelMove × List LevelMove :=
  let prevBids := match prev with | none => [] | some p => p.1
  let prevAsks := match prev with | none => [] | some p => p.2
  (compareSide prevBids next.1 mid baseMmNotional windowBps notionalFloor,
   compareSide prevAsks next.2 mid baseMmNotional windowBps notionalFloor)

namespace OutlierSpanTracker

/-- The span key `(symbol, market, exchange, side, price)`; the source
joins the five fields into the string
`symbol:market:exchange:side:price`, an injective encoding. -/
structure SpanKey where
  symbol : String
  market : String
  exchange : String
  side : String
  price : ℚ
deriving DecidableEq, Repr

/-- The fields of the candidate records handed to
`OutlierSpanTracker.update` that the tracker state depends on.  The
remaining enrichment context (mid, book snapshot, best bid/ask, spread,
imbalance, depths, microprice, level rank, vols) is copied verbatim into
`start*`/`last*` slots and never read back by the tracker logic, so it
is omitted from the embedding. -/
structure InputRecord where
  ts : ℤ
  symbol : String
  market : String
  exchange : String
  side : String
  price : ℚ
  zScore : ℚ
  size : ℚ
deriving DecidableEq, Repr

/-- `ActiveSpan` from `src/mexc.ts`, restricted to the fields retained
in the embedding (see `InputRecord`). -/
structure ActiveSpan where
  startTs : ℤ
  lastTs : ℤ
  sumZ : ℚ
  maxZ : ℚ
  count : ℕ
  symbol : String
  market : String
  exchange : String
  side : String
  price : ℚ
  startSize : ℚ
  lastSize : ℚ
  tradeBuyQty : ℚ
  tradeSellQty : ℚ
  tradeCount : ℕ
deriving DecidableEq, Repr

/-- The closed `OutlierSpanRecord` appended to the `OutlierSpanStore`,
restricted to the fields retained in the embedding. -/
structure ClosedSpan where
  startTs : ℤ
  endTs : ℤ
  durationMs : ℤ
  symbol : String
  market : String
  exchange : String
  side : String
  price : ℚ
  maxZ : ℚ
  avgZ : ℚ
  count : ℕ
  startSize : ℚ
  endSize : ℚ
  filledPct : ℚ
  sizeDelta : ℚ
  sizeDeltaPct : ℚ
  tradeBuyQty : ℚ
  tradeSellQty : ℚ
  tradeCount : ℕ
deriving DecidableEq, Repr

/-- `OutlierSpanTracker.key(record)` as a `SpanKey`. -/
def keyOf (r : InputRecord) : SpanKey :=
  ⟨r.symbol, r.market, r.exchange, r.side, r.price⟩

/-- The key carried by an active span's own fields. -/
def spanKey (a : ActiveSpan) : SpanKey :=
  ⟨a.symbol, a.market, a.exchange, a.side, a.price⟩

/-- The key carried by a closed span's own fields. -/
def closedKey (c : ClosedSpan) : SpanKey :=
  ⟨c.symbol, c.market, c.exchange, c.side, c.price⟩

/-- The `new ActiveSpan` initialisation of `update`'s else-branch:
`start* = last* = r.*`, `count = 1`, `sumZ = maxZ = r.zScore`, trade
counters zeroed. -/
def newSpan (r : InputRecord) : ActiveSpan :=
  ⟨r.ts, r.ts, r.zScore, r.zScore, 1, r.symbol, r.market, r.exchange,
   r.side, r.price, r.size, r.size, 0, 0, 0⟩

/-- The extension branch of `update`: bump `lastTs`, `sumZ`, `count`,
refresh the `last*` fields, and raise `maxZ` when the new z-score
exceeds it. -/
def extendSpan (a : ActiveSpan) (r : InputRecord) : ActiveSpan :=
  { a with
    lastTs := r.ts
    sumZ := a.sumZ + r.zScore
    count := a.count + 1
    lastSize := r.size
    maxZ := if a.maxZ < r.zScore then r.zScore else a.maxZ }

/-- The close-out computation of `update`: `durationMs`, clamped
`filledPct`, `sizeDelta`, `sizeDeltaPct` and `avgZ = sumZ/max(1,count)`
as in `src/mexc.ts`. -/
def closeSpan (a : ActiveSpan) : ClosedSpan :=
  { startTs := a.startTs
    endTs := a.lastTs
    durationMs := max 0 (a.lastTs - a.startTs)
    symbol := a.symbol
    market := a.market
    exchange := a.exchange
    side := a.side
    price := a.price
    maxZ := a.maxZ
    avgZ := a.sumZ / (max 1 a.count : ℕ)
    count := a.count
    startSize := a.startSize
    endSize := a.lastSize
    filledPct :=
      if 0 < a.startSize then
        min 1 (max 0 ((a.startSize - a.lastSize) / a.startSize))
      else 0
    sizeDelta := a.lastSize - a.startSize
    sizeDeltaPct :=
      if 0 < a.startSize then (a.lastSize - a.startSize) / a.startSize
      else 0
    tradeBuyQty := a.tradeBuyQty
    tradeSellQty := a.tradeSellQty
    tradeCount := a.tradeCount }

/-- The first loop of `OutlierSpanTracker.update`: walk the candidate
records, extending the active span in place when the key exists and
appending a fresh span otherwise, while collecting the `seen` keys. -/
def pass1 (active : List (SpanKey × ActiveSpan)) (seen : List SpanKey) :
    List InputRecord → List (SpanKey × ActiveSpan) × List SpanKey
  | [] => (active, seen)
  | r :: rs =>
      let k := keyOf r
      if jhas active k then
        pass1 (active.map (fun p => if p.1 = k then (p.1, extendSpan p.2 r) else p))
          (seen ++ [k]) rs
      else
        pass1 (active ++ [(k, newSpan r)]) (seen ++ [k]) rs

/-- `OutlierSpanTracker.update(records)` from `src/mexc.ts`: process the
candidate records, then close and append (in map iteration order) every
active span whose key was not seen; returns the new active map and the
list of spans appended to the store. -/
def update (active : List (SpanKey × ActiveSpan))
    (records : List InputRecord) :
    List (SpanKey × ActiveSpan) × List ClosedSpan :=
  let s := pass1 active [] records
  (s.1.filter (fun p => decide (p.1 ∈ s.2)),
   (s.1.filter (fun p => decide (p.1 ∉ s.2))).map (fun p => closeSpan p.2))

/-- A whole run of the tracker: one `update` call per element of
`calls`, accumulating the spans appended to the store. -/
def updateSeq (active : List (SpanKey × ActiveSpan)) :
    List (List InputRecord) → List (SpanKey × ActiveSpan) × List ClosedSpan
  | [] => (active, [])
  | c :: cs =>
      let r := update active c
      let rest := updateSeq r.1 cs
      (rest.1, r.2 ++ rest.2)

/-- The side tag of an incoming trade. -/
inductive TradeSide : Type
  | buy
  | sell
deriving DecidableEq, Repr

/-- The trade input of `OutlierSpanTracker.recordTrade`. -/
structure TradeInput where
  ts : ℤ
  symbol : String
  market : String
  exchange : String
  price : ℚ
  qty : ℚ
  side : TradeSide
deriving DecidableEq, Repr

/-- The accumulation applied to a matching span by `recordTrade`. -/
def bumpTrade (a : ActiveSpan) (input : TradeInput) : ActiveSpan :=
  match input.side with
  | TradeSide.buy =>
      { a with tradeBuyQty := a.tradeBuyQty + input.qty,
               tradeCount := a.tradeCount + 1 }
  | TradeSide.sell =>
      { a with tradeSellQty := a.tradeSellQty + input.qty,
               tradeCount := a.tradeCount + 1 }

/-- `OutlierSpanTracker.recordTrade` from `src/mexc.ts`: for every
active span matching the trade's `(symbol, market, exchange)` (exchange
case-insensitively) whose price is within 5 bps of the trade price using
`mid = (spanPrice + tradePrice)/2 > 0`, accumulate the trade quantity
on the matching side and bump `tradeCount`. -/
def recordTrade (active : List (SpanKey × ActiveSpan))
    (input : TradeInput) : List (SpanKey × ActiveSpan) :=
  active.map (fun p =>
    let span := p.2
    if span.exchange.toLower = input.exchange.toLower ∧
        span.symbol = input.symbol ∧ span.market = input.market then
      let mid := (span.price + input.price) / 2
      if 0 < mid ∧ |span.price - input.price| / mid * 10000 ≤ 5 then
        (p.1, bumpTrade span input)
      else p
    else p)

end OutlierSpanTracker

lemma jget_eq_none {α β : Type} [DecidableEq α] {m : List (α × β)} {k : α} :
    jget m k = none ↔ ∀ p ∈ m, p.1 ≠ k := by
  simp [jget, List.find?_eq_none]

lemma jdelete_of_jget_none {α β : Type} [DecidableEq α] {m : List (α × β)}
    {k : α} (h : jget m k = none) : jdelete m k = m := by
  rw [jdelete, List.filter_eq_self]
  intro p hp
  simpa using jget_eq_none.mp h p hp

lemma recordUpdate_same_changes (t : LevelTracker) (side : Side) (price v : ℚ)
    (s2 : Side) :
    ((t.recordUpdate side price v (some v)).stats.get s2).changes
      = (t.stats.get s2).changes := by
  unfold LevelTracker.recordUpdate
  by_cases hv : v = 0
  · subst hv
    cases side <;> cases s2 <;>
      simp [MoveStats.get, MoveStats.put]
  · simp [hv]

/-- C7: `LevelTracker.recordUpdate` is an identity in two cases: a
deletion (`nextSize = 0`) at a price with no previous size leaves both
the book state and the tracker untouched in `BybitOrderbook.applyUpdate`,
and replaying a level with its previous size never increments the
`changes` counter. -/
theorem C7_recordUpdate_noop :
    (∀ (book : List (ℚ × ℚ)) (t : LevelTracker) (side : Side) (price : ℚ),
      jget book price = none →
      BybitOrderbook.applyUpdate book t side (price, 0) = (book, t)) ∧
    (∀ (t : LevelTracker) (side : Side) (price v : ℚ) (s2 : Side),
      ((t.recordUpdate side price v (some v)).stats.get s2).changes
        = (t.stats.get s2).changes) := by
  constructor
  · intro book t side price h
    have hd : jdelete book price = book := jdelete_of_jget_none h
    simp [BybitOrderbook.applyUpdate, h, hd, LevelTracker.recordUpdate]
  · exact recordUpdate_same_changes

/-- Witness for C7 at a concrete book, price and size. -/
theorem C7_recordUpdate_noop_witness :
    jget ([] : List (ℚ × ℚ)) 100 = none ∧
    BybitOrderbook.applyUpdate [] emptyTracker Side.bids (100, 0)
      = ([], emptyTracker) ∧
    ((emptyTracker.recordUpdate Side.bids 100 2 (some 2)).stats.get
        Side.bids).changes
      = ((emptyTracker.stats.get Side.bids)).changes :=
  ⟨by simp [jget],
   C7_recordUpdate_noop.1 [] emptyTracker Side.bids 100 (by simp [jget]),
   C7_recordUpdate_noop.2 emptyTracker Side.bids 100 2 Side.bids⟩

lemma recordUpdate_removals_of_pos (t : LevelTracker) (side : Side)
    (price v : ℚ) (prev : Option ℚ) (hv : 0 < v) (s2 : Side) :
    ((t.recordUpdate side price v prev).stats.get s2).removals
      = (t.stats.get s2).removals := by
  unfold LevelTracker.recordUpdate
  match prev with
  | none =>
      cases side <;> cases s2 <;>
        simp [hv, MoveStats.get, MoveStats.put]
  | some p =>
      have hv0 : v ≠ 0 := ne_of_gt hv
      by_cases hp : v = p
      · subst hp
        simp [hv0]
      · cases side <;> cases s2 <;>
          simp [hv0, hp, MoveStats.get, MoveStats.put]

lemma recordUpdate_removal_bump (t : LevelTracker) (side : Side)
    (price p : ℚ) :
    ((t.recordUpdate side price 0 (some p)).stats.get side).removals
      = (t.stats.get side).removals + 1 := by
  unfold LevelTracker.recordUpdate
  cases side <;> simp [MoveStats.get, MoveStats.put]

lemma applySnapshot_pass1_removals (side : Side) (prevMap : List (ℚ × ℚ))
    (s2 : Side) :
    ∀ (snapshot : List (ℚ × ℚ)) (acc : List (ℚ × ℚ) × LevelTracker),
    ((snapshot.foldl
      (fun (acc : List (ℚ × ℚ) × LevelTracker) lvl =>
        if lvl.2 ≤ 0 then acc
        else
          (jset acc.1 lvl.1 lvl.2,
           acc.2.recordUpdate side lvl.1 lvl.2 (jget prevMap lvl.1)))
      acc).2.stats.get s2).removals = (acc.2.stats.get s2).removals := by
  intro snapshot
  induction snapshot with
  | nil => intro acc; rfl
  | cons lvl rest ih =>
      intro acc
      by_cases h : lvl.2 ≤ 0
      · simp only [List.foldl_cons, if_pos h]
        exact ih acc
      · simp only [List.foldl_cons, if_neg h]
        rw [ih]
        exact recordUpdate_removals_of_pos _ _ _ _ _ (lt_of_not_le h) s2

lemma applySnapshot_pass2_removals (side : Side) (nextMap : List (ℚ × ℚ)) :
    ∀ (prevMap : List (ℚ × ℚ)) (t : LevelTracker),
    ((prevMap.foldl
      (fun tr p =>
        if jhas nextMap p.1 then tr
        else tr.recordUpdate side p.1 0 (some p.2)) t).stats.get side).removals
      = (t.stats.get side).removals
        + prevMap.countP (fun p => !(jhas nextMap p.1)) := by
  intro prevMap
  induction prevMap with
  | nil => intro t; simp
  | cons p rest ih =>
      intro t
      by_cases h : jhas nextMap p.1
      · simp only [List.foldl_cons, if_pos h]
        rw [ih, List.countP_cons]
        simp [h]
      · simp only [List.foldl_cons, if_neg h]
        rw [ih, recordUpdate_removal_bump, List.countP_cons]
        simp [h]
        omega

/-- C6: `MexcOrderbook.applySnapshot` diffs the snapshot against the
previous side: in general every previously known price absent from the
rebuilt side bumps the `removals` counter exactly once, and on the
concrete instance of the spec — previous bids `{100→1, 99→2}`, snapshot
`[(100,3),(98,1)]` — the final bids are `{100→3, 98→1}` with
`changes = 1`, `adds = 1` and `removals = 1`. -/
theorem C6_snapshot_diff :
    (∀ (prevMap : List (ℚ × ℚ)) (t : LevelTracker) (side : Side)
        (snapshot : List (ℚ × ℚ)),
      ((MexcOrderbook.applySnapshot prevMap t side snapshot).2.stats.get
          side).removals
        = (t.stats.get side).removals
          + prevMap.countP (fun p =>
              !(jhas (MexcOrderbook.applySnapshot prevMap t side snapshot).1
                  p.1))) ∧
    ((MexcOrderbook.applySnapshot [(100, 1), (99, 2)] emptyTracker Side.bids
        [(100, 3), (98, 1)]).1 = [(100, 3), (98, 1)]) ∧
    (((MexcOrderbook.applySnapshot [(100, 1), (99, 2)] emptyTracker Side.bids
        [(100, 3), (98, 1)]).2.stats.get Side.bids).changes = 1 ∧
     ((MexcOrderbook.applySnapshot [(100, 1), (99, 2)] emptyTracker Side.bids
        [(100, 3), (98, 1)]).2.stats.get Side.bids).adds = 1 ∧
     ((MexcOrderbook.applySnapshot [(100, 1), (99, 2)] emptyTracker Side.bids
        [(100, 3), (98, 1)]).2.stats.get Side.bids).removals = 1) := by
  refine ⟨?_, ?_, ?_⟩
  · intro prevMap t side snapshot
    unfold MexcOrderbook.applySnapshot
    rw [applySnapshot_pass2_removals, applySnapshot_pass1_removals]
  · norm_num [MexcOrderbook.applySnapshot, jset, jget, jhas,
      LevelTracker.recordUpdate, MoveStats.get, MoveStats.put, emptyTracker,
      emptySideStats]
  · norm_num [MexcOrderbook.applySnapshot, jset, jget, jhas,
      LevelTracker.recordUpdate, MoveStats.get, MoveStats.put, emptyTracker,
      emptySideStats]

lemma binIndex_le (bins : List ℚ) (d : ℚ) : binIndex bins d ≤ bins.length := by
  induction bins with
  | nil => simp [binIndex]
  | cons b bs ih =>
      by_cases h : d ≤ b
      · simp [binIndex, h]
      · simp only [binIndex, if_neg h, List.length_cons]
        omega

lemma sum_set_incr (l : List ℕ) (i : ℕ) (h : i < l.length) :
    (l.set i (l.getD i 0 + 1)).sum = l.sum + 1 := by
  induction l generalizing i with
  | nil => simp at h
  | cons x xs ih =>
      cases i with
      | zero =>
          simp only [List.set, List.sum_cons, List.getD_cons_zero]
          omega
      | succ j =>
          have hj : j < xs.length := by simpa using h
          have hx := ih j hj
          simp only [List.set, List.sum_cons, List.getD_cons_succ]
          omega

lemma countBins_fold_invariant (bins : List ℚ) :
    ∀ (ds : List ℚ) (acc : List ℕ), acc.length = bins.length + 1 →
    ((ds.foldl
        (fun counts d =>
          counts.set (binIndex bins d) (counts.getD (binIndex bins d) 0 + 1))
        acc).length = bins.length + 1 ∧
     (ds.foldl
        (fun counts d =>
          counts.set (binIndex bins d) (counts.getD (binIndex bins d) 0 + 1))
        acc).sum = acc.sum + ds.length) := by
  intro ds
  induction ds with
  | nil => intro acc hacc; simpa using hacc
  | cons d rest ih =>
      intro acc hacc
      have hidx : binIndex bins d < acc.length := by
        rw [hacc]
        exact Nat.lt_succ_of_le (binIndex_le bins d)
      have hlen : (acc.set (binIndex bins d)
          (acc.getD (binIndex bins d) 0 + 1)).length = bins.length + 1 := by
        simpa using hacc
      obtain ⟨h1, h2⟩ := ih _ hlen
      refine ⟨h1, ?_⟩
      simp only [List.foldl_cons] at h2 ⊢
      rw [h2, sum_set_incr _ _ hidx, List.length_cons]
      omega

lemma countBins_length (ds bins : List ℚ) :
    (countBins ds bins).length = bins.length + 1 :=
  (countBins_fold_invariant bins ds _ (by simp)).1

lemma countBins_sum (ds bins : List ℚ) :
    (countBins ds bins).sum = ds.length := by
  have h := (countBins_fold_invariant bins ds
    (List.replicate (bins.length + 1) 0) (by simp)).2
  rw [countBins] at *
  rw [h]
  simp

/-- C8: every `MetricsPoint` produced by `computeMetrics` carries
distance histograms of length `|distanceBinsBps| + 1` whose entries sum
to the number of input levels on the corresponding side. -/
theorem C8_distance_bin_counts (symbol : String) (bids asks : List (ℚ × ℚ))
    (base : ℚ) (bins : List ℚ) (ms : MoveStats) (mp : MetricsPoint)
    (h : computeMetrics symbol bids asks base bins ms = some mp) :
    mp.distanceBinCountsBid.length = bins.length + 1 ∧
    mp.distanceBinCountsAsk.length = bins.length + 1 ∧
    mp.distanceBinCountsBid.sum = bids.length ∧
    mp.distanceBinCountsAsk.sum = asks.length := by
  match bids, asks with
  | [], _ => exact absurd h (by simp [computeMetrics])
  | _ :: _, [] => exact absurd h (by simp [computeMetrics])
  | b0 :: brest, a0 :: arest =>
      rw [computeMetrics] at h
      have hmp := (Option.some_injective _ h).symm
      subst hmp
      refine ⟨?_, ?_, ?_, ?_⟩
      · exact countBins_length _ _
      · exact countBins_length _ _
      · rw [countBins_sum]
        simp [sideDistances]
      · rw [countBins_sum]
        simp [sideDistances]

/-- Witness for C8 at a concrete one-level book pair. -/
theorem C8_distance_bin_counts_witness :
    ∃ mp, computeMetrics "S" [(1, 1)] [(2, 1)] 1 []
        ⟨emptySideStats, emptySideStats⟩ = some mp ∧
      mp.distanceBinCountsBid.length = 1 ∧
      mp.distanceBinCountsAsk.length = 1 ∧
      mp.distanceBinCountsBid.sum = 1 ∧
      mp.distanceBinCountsAsk.sum = 1 := by
  refine ⟨_, rfl, ?_⟩
  exact C8_distance_bin_counts "S" [(1, 1)] [(2, 1)] 1 []
    ⟨emptySideStats, emptySideStats⟩ _ rfl

lemma mem_jset {α β : Type} [DecidableEq α] {m : List (α × β)} {k : α}
    {v : β} {p : α × β} (h : p ∈ jset m k v) : p ∈ m ∨ p = (k, v) := by
  unfold jset at h
  by_cases hk : jhas m k
  · rw [if_pos hk] at h
    obtain ⟨q, hq, hqe⟩ := List.mem_map.mp h
    by_cases hq1 : q.1 = k
    · right
      rw [if_pos hq1] at hqe
      exact hqe.symm
    · left
      rw [if_neg hq1] at hqe
      exact hqe ▸ hq
  · rw [if_neg hk] at h
    rcases List.mem_append.mp h with h1 | h2
    · exact Or.inl h1
    · right
      simpa using h2

lemma mem_jdelete {α β : Type} [DecidableEq α] {m : List (α × β)} {k : α}
    {p : α × β} (h : p ∈ jdelete m k) : p ∈ m :=
  List.mem_of_mem_filter h

lemma not_jhas_iff {α β : Type} [DecidableEq α] {m : List (α × β)} {k : α} :
    jhas m k = false ↔ ∀ p ∈ m, p.1 ≠ k := by
  simp [jhas]

lemma jset_keys_nodup {α β : Type} [DecidableEq α] {m : List (α × β)}
    {k : α} {v : β} (hn : (m.map (fun p => p.1)).Nodup) :
    ((jset m k v).map (fun p => p.1)).Nodup := by
  unfold jset
  by_cases hk : jhas m k
  · rw [if_pos hk, List.map_map]
    have : (fun p : α × β => p.1) ∘ (fun p => if p.1 = k then (k, v) else p)
        = fun p => p.1 := by
      funext p
      by_cases h1 : p.1 = k <;> simp [h1]
    rw [this]
    exact hn
  · rw [if_neg hk, List.map_append]
    rw [List.nodup_append]
    refine ⟨hn, by simp, ?_⟩
    intro a ha hb
    obtain ⟨p, hp, rfl⟩ := List.mem_map.mp ha
    have hb' : p.1 = k := by simpa using hb
    exact (not_jhas_iff.mp (by simpa using hk)) p hp hb'

lemma jdelete_keys_nodup {α β : Type} [DecidableEq α] {m : List (α × β)}
    {k : α} (hn : (m.map (fun p => p.1)).Nodup) :
    ((jdelete m k).map (fun p => p.1)).Nodup :=
  ((List.filter_sublist m).map (fun p => p.1)).nodup hn

lemma applyUpdate_book_fields (book : List (ℚ × ℚ)) (t : LevelTracker)
    (side : Side) (u : ℚ × ℚ) :
    (BybitOrderbook.applyUpdate book t side u).1
      = if u.2 = 0 then jdelete book u.1 else jset book u.1 u.2 := rfl

lemma applyUpdate_pos (book : List (ℚ × ℚ)) (t : LevelTracker) (side : Side)
    (u : ℚ × ℚ) (hb : ∀ e ∈ book, 0 < e.2) (hu : 0 ≤ u.2) :
    ∀ e ∈ (BybitOrderbook.applyUpdate book t side u).1, 0 < e.2 := by
  intro e he
  rw [applyUpdate_book_fields] at he
  by_cases h0 : u.2 = 0
  · rw [if_pos h0] at he
    exact hb e (mem_jdelete he)
  · rw [if_neg h0] at he
    rcases mem_jset he with h1 | h2
    · exact hb e h1
    · rw [h2]
      exact lt_of_le_of_ne hu (Ne.symm h0)

lemma applyUpdate_keys_nodup (book : List (ℚ × ℚ)) (t : LevelTracker)
    (side : Side) (u : ℚ × ℚ)
    (hn : (book.map (fun p => p.1)).Nodup) :
    (((BybitOrderbook.applyUpdate book t side u).1).map
      (fun p => p.1)).Nodup := by
  rw [applyUpdate_book_fields]
  by_cases h0 : u.2 = 0
  · rw [if_pos h0]
    exact jdelete_keys_nodup hn
  · rw [if_neg h0]
    exact jset_keys_nodup hn

lemma applyUpdates_pos (side : Side) :
    ∀ (updates : List (ℚ × ℚ)) (book : List (ℚ × ℚ)) (t : LevelTracker),
    (∀ e ∈ book, 0 < e.2) → (∀ u ∈ updates, 0 ≤ u.2) →
    ∀ e ∈ (BybitOrderbook.applyUpdates book t side updates).1, 0 < e.2 := by
  intro updates
  induction updates with
  | nil => intro book t hb _ e he; exact hb e he
  | cons u rest ih =>
      intro book t hb hu e he
      rw [BybitOrderbook.applyUpdates, List.foldl_cons] at he
      exact ih _ _
        (applyUpdate_pos book t side u hb (hu u (by simp)))
        (fun w hw => hu w (by simp [hw])) e he

lemma applyUpdates_keys_nodup (side : Side) :
    ∀ (updates : List (ℚ × ℚ)) (book : List (ℚ × ℚ)) (t : LevelTracker),
    (book.map (fun p => p.1)).Nodup →
    (((BybitOrderbook.applyUpdates book t side updates).1).map
      (fun p => p.1)).Nodup := by
  intro updates
  induction updates with
  | nil => intro book t hn; exact hn
  | cons u rest ih =>
      intro book t hn
      rw [BybitOrderbook.applyUpdates, List.foldl_cons]
      exact ih _ _ (applyUpdate_keys_nodup book t side u hn)

lemma applySnapshot_book_fields (prevMap : List (ℚ × ℚ)) (t : LevelTracker)
    (side : Side) (snapshot : List (ℚ × ℚ)) :
    (MexcOrderbook.applySnapshot prevMap t side snapshot).1
      = (snapshot.foldl
          (fun (acc : List (ℚ × ℚ) × LevelTracker) lvl =>
            if lvl.2 ≤ 0 then acc
            else
              (jset acc.1 lvl.1 lvl.2,
               acc.2.recordUpdate side lvl.1 lvl.2 (jget prevMap lvl.1)))
          ([], t)).1 := rfl

lemma applySnapshot_pass1_pos (side : Side) (prevMap : List (ℚ × ℚ)) :
    ∀ (snapshot : List (ℚ × ℚ)) (acc : List (ℚ × ℚ) × LevelTracker),
    (∀ e ∈ acc.1, 0 < e.2) →
    ∀ e ∈ (snapshot.foldl
        (fun (acc : List (ℚ × ℚ) × LevelTracker) lvl =>
          if lvl.2 ≤ 0 then acc
          else
            (jset acc.1 lvl.1 lvl.2,
             acc.2.recordUpdate side lvl.1 lvl.2 (jget prevMap lvl.1)))
        acc).1, 0 < e.2 := by
  intro snapshot
  induction snapshot with
  | nil => intro acc hacc e he; exact hacc e he
  | cons lvl rest ih =>
      intro acc hacc e he
      rw [List.foldl_cons] at he
      by_cases h : lvl.2 ≤ 0
      · rw [if_pos h] at he
        exact ih acc hacc e he
      · rw [if_neg h] at he
        refine ih _ ?_ e he
        intro w hw
        rcases mem_jset hw with h1 | h2
        · exact hacc w h1
        · rw [h2]
          exact lt_of_not_le h

lemma applySnapshot_pass1_keys_nodup (side : Side) (prevMap : List (ℚ × ℚ)) :
    ∀ (snapshot : List (ℚ × ℚ)) (acc : List (ℚ × ℚ) × LevelTracker),
    ((acc.1).map (fun p => p.1)).Nodup →
    (((snapshot.foldl
        (fun (acc : List (ℚ × ℚ) × LevelTracker) lvl =>
          if lvl.2 ≤ 0 then acc
          else
            (jset acc.1 lvl.1 lvl.2,
             acc.2.recordUpdate side lvl.1 lvl.2 (jget prevMap lvl.1)))
        acc).1).map (fun p => p.1)).Nodup := by
  intro snapshot
  induction snapshot with
  | nil => intro acc h; exact h
  | cons lvl rest ih =>
      intro acc h
      rw [List.foldl_cons]
      by_cases hc : lvl.2 ≤ 0
      · rw [if_pos hc]
        exact ih acc h
      · rw [if_neg hc]
        exact ih _ (jset_keys_nodup h)

lemma sortLevels_strict (m : List (ℚ × ℚ)) (depth : ℕ)
    (hn : (m.map (fun p => p.1)).Nodup) :
    (sortLevels m Side.bids depth).Pairwise (fun a b => b.1 < a.1) ∧
    (sortLevels m Side.asks depth).Pairwise (fun a b => a.1 < b.1) := by
  have hne : m.Pairwise (fun a b : ℚ × ℚ => a.1 ≠ b.1) :=
    List.pairwise_map.mp hn
  constructor
  · have hs := @List.sorted_mergeSort _
      (fun a b : ℚ × ℚ => decide (b.1 ≤ a.1))
      (fun a b c hab hbc => by
        simp only [decide_eq_true_eq] at *
        exact le_trans hbc hab)
      (fun a b => by
        simp only [Bool.or_eq_true, decide_eq_true_eq]
        exact le_total b.1 a.1) m
    have hperm := List.mergeSort_perm m
      (fun a b : ℚ × ℚ => decide (b.1 ≤ a.1))
    have hne' : (m.mergeSort (fun a b : ℚ × ℚ => decide (b.1 ≤ a.1))).Pairwise
        (fun a b : ℚ × ℚ => a.1 ≠ b.1) :=
      (hperm.pairwise_iff (fun h => Ne.symm h)).mpr hne
    have hcomb := (hs.imp (fun h => of_decide_eq_true h)).and hne'
    refine List.Pairwise.take (hcomb.imp ?_)
    intro a b hab
    exact lt_of_le_of_ne hab.1 (Ne.symm hab.2)
  · have hs := @List.sorted_mergeSort _
      (fun a b : ℚ × ℚ => decide (a.1 ≤ b.1))
      (fun a b c hab hbc => by
        simp only [decide_eq_true_eq] at *
        exact le_trans hab hbc)
      (fun a b => by
        simp only [Bool.or_eq_true, decide_eq_true_eq]
        exact le_total a.1 b.1) m
    have hperm := List.mergeSort_perm m
      (fun a b : ℚ × ℚ => decide (a.1 ≤ b.1))
    have hne' : (m.mergeSort (fun a b : ℚ × ℚ => decide (a.1 ≤ b.1))).Pairwise
        (fun a b : ℚ × ℚ => a.1 ≠ b.1) :=
      (hperm.pairwise_iff (fun h => Ne.symm h)).mpr hne
    have hcomb := (hs.imp (fun h => of_decide_eq_true h)).and hne'
    refine List.Pairwise.take (hcomb.imp ?_)
    intro a b hab
    exact lt_of_le_of_ne hab.1 hab.2

/-- C5 counterexample: a bybit update with a negative size is stored
verbatim, so an arbitrary message sequence can leave an entry with
`size ≤ 0` in the book state. -/
theorem C5_book_state_counterexample :
    ∃ e ∈ (BybitOrderbook.applyUpdates [] emptyTracker Side.bids
      [(100, -1)]).1, e.2 ≤ 0 := by
  refine ⟨(100, -1), ?_, by norm_num⟩
  norm_num [BybitOrderbook.applyUpdates, BybitOrderbook.applyUpdate, jget,
    jset, jhas, jdelete]

/-- C5 (amended): for update sequences whose sizes are non-negative the
bybit book state keeps every entry strictly positive (a `size = 0`
update deletes the entry); the mexc snapshot path keeps entries strictly
positive unconditionally; and on any book whose price keys are distinct
(as they are for these map-backed states) the sorted top-N is strictly
decreasing by price for bids and strictly increasing for asks. -/
theorem C5_book_state_invariants :
    (∀ (book : List (ℚ × ℚ)) (t : LevelTracker) (side : Side)
        (updates : List (ℚ × ℚ)),
      (∀ e ∈ book, 0 < e.2) → (∀ u ∈ updates, 0 ≤ u.2) →
      (∀ e ∈ (BybitOrderbook.applyUpdates book t side updates).1, 0 < e.2)) ∧
    (∀ (prevMap : List (ℚ × ℚ)) (t : LevelTracker) (side : Side)
        (snapshot : List (ℚ × ℚ)),
      ∀ e ∈ (MexcOrderbook.applySnapshot prevMap t side snapshot).1,
        0 < e.2) ∧
    (∀ (book : List (ℚ × ℚ)) (t : LevelTracker) (side : Side)
        (updates : List (ℚ × ℚ)),
      (book.map (fun p => p.1)).Nodup →
      ((((BybitOrderbook.applyUpdates book t side updates).1).map
        (fun p => p.1)).Nodup)) ∧
    (∀ (m : List (ℚ × ℚ)) (depth : ℕ),
      (m.map (fun p => p.1)).Nodup →
      (sortLevels m Side.bids depth).Pairwise (fun a b => b.1 < a.1) ∧
      (sortLevels m Side.asks depth).Pairwise (fun a b => a.1 < b.1)) := by
  refine ⟨?_, ?_, ?_, ?_⟩
  · intro book t side updates hb hu
    exact applyUpdates_pos side updates book t hb hu
  · intro prevMap t side snapshot e he
    rw [applySnapshot_book_fields] at he
    exact applySnapshot_pass1_pos side prevMap snapshot ([], t)
      (by intro w hw; simp at hw) e he
  · intro book t side updates hn
    exact applyUpdates_keys_nodup side updates book t hn
  · intro m depth hn
    exact sortLevels_strict m depth hn

/-- Witness for C5 at a concrete two-update message. -/
theorem C5_book_state_invariants_witness :
    (∀ e ∈ (BybitOrderbook.applyUpdates [] emptyTracker Side.bids
      [(100, 2), (101, 1)]).1, 0 < e.2) ∧
    (sortLevels [(100, 2), (101, 1)] Side.bids 50).Pairwise
      (fun a b => b.1 < a.1) := by
  constructor
  · exact C5_book_state_invariants.1 [] emptyTracker Side.bids
      [(100, 2), (101, 1)] (by intro e he; simp at he) (by norm_num)
  · exact (C5_book_state_invariants.2.2.2 [(100, 2), (101, 1)] 50
      (by norm_num)).1

lemma popVariance_nonneg (sizes : List ℚ) : 0 ≤ popVariance sizes := by
  unfold popVariance
  apply div_nonneg
  · apply List.sum_nonneg
    intro x hx
    obtain ⟨s, hs, rfl⟩ := List.mem_map.mp hx
    positivity
  · positivity

lemma zGE_iff_real (s mu v t : ℚ) (hv : 0 < v) (ht : 0 ≤ t) :
    zGE s mu v t = true ↔
      (t : ℝ) ≤ ((s : ℝ) - (mu : ℝ)) / Real.sqrt (v : ℝ) := by
  have hvR : (0 : ℝ) < (v : ℝ) := by exact_mod_cast hv
  have hσ : 0 < Real.sqrt (v : ℝ) := Real.sqrt_pos.mpr hvR
  have hts : (0 : ℝ) ≤ (t : ℝ) := by exact_mod_cast ht
  rw [le_div_iff₀ hσ]
  simp only [zGE, Bool.and_eq_true, decide_eq_true_eq]
  constructor
  · rintro ⟨h1, h2⟩
    have h1R : (0 : ℝ) ≤ (s : ℝ) - (mu : ℝ) := by
      have hcast : ((0 : ℚ) : ℝ) ≤ ((s - mu : ℚ) : ℝ) := by
        exact_mod_cast h1
      push_cast at hcast
      linarith
    have h2R : ((t : ℝ)) ^ 2 * (v : ℝ) ≤ ((s : ℝ) - (mu : ℝ)) ^ 2 := by
      have hcast : ((t ^ 2 * v : ℚ) : ℝ) ≤ (((s - mu) ^ 2 : ℚ) : ℝ) := by
        exact_mod_cast h2
      push_cast at hcast
      linarith
    have h0 : 0 ≤ (t : ℝ) * Real.sqrt (v : ℝ) := mul_nonneg hts hσ.le
    have hsq : ((t : ℝ) * Real.sqrt (v : ℝ)) ^ 2
        ≤ ((s : ℝ) - (mu : ℝ)) ^ 2 := by
      rw [mul_pow, Real.sq_sqrt hvR.le]
      exact h2R
    have := Real.sqrt_le_sqrt hsq
    rwa [Real.sqrt_sq h0, Real.sqrt_sq h1R] at this
  · intro h
    have h0 : 0 ≤ (t : ℝ) * Real.sqrt (v : ℝ) := mul_nonneg hts hσ.le
    have h1R : (0 : ℝ) ≤ (s : ℝ) - (mu : ℝ) := le_trans h0 h
    have hsq : ((t : ℝ) * Real.sqrt (v : ℝ)) ^ 2
        ≤ ((s : ℝ) - (mu : ℝ)) ^ 2 := by
      have h2 : 0 ≤ ((s : ℝ) - (mu : ℝ)) := h1R
      exact pow_le_pow_left₀ h0 h 2
    rw [mul_pow, Real.sq_sqrt hvR.le] at hsq
    constructor
    · exact_mod_cast h1R
    · exact_mod_cast hsq

lemma computeZScoreOutliers_filter (levels : List (ℚ × ℚ)) (mid : ℚ)
    (h1 : ¬(levels.length = 0 ∨ mid ≤ 0))
    (h2 : popVariance (levels.map (fun l => l.2)) ≠ 0) :
    computeZScoreOutliers levels mid
      = levels.filter (fun l =>
          zGE l.2 (popMean (levels.map (fun l => l.2)))
            (popVariance (levels.map (fun l => l.2))) OUTLIER_Z) := by
  simp only [computeZScoreOutliers, if_neg h1, if_neg h2]

lemma computeZScoreOutliers_degenerate (levels : List (ℚ × ℚ)) (mid : ℚ)
    (h : levels = [] ∨ mid ≤ 0 ∨
      popVariance (levels.map (fun l => l.2)) = 0) :
    computeZScoreOutliers levels mid = [] := by
  simp only [computeZScoreOutliers]
  rcases h with h | h | h
  · rw [if_pos (Or.inl (by simp [h]))]
  · rw [if_pos (Or.inr h)]
  · by_cases h0 : levels.length = 0 ∨ mid ≤ 0
    · rw [if_pos h0]
    · rw [if_neg h0, if_pos h]

/-- C1 (amended): the outlier detector emits no records when the side is
empty, `mid ≤ 0` or the population variance (equivalently the standard
deviation) is zero, and otherwise emits exactly the levels whose z-score
`(size − μ)/σ` is at least `OUTLIER_Z = 4` — the source threshold, not
the 5 claimed — so the number of emitted records equals the number of
levels passing the threshold-4 test. -/
theorem C1_outlier_threshold (levels : List (ℚ × ℚ)) (mid : ℚ) :
    (levels = [] ∨ mid ≤ 0 ∨
        popVariance (levels.map (fun l => l.2)) = 0 →
      computeZScoreOutliers levels mid = []) ∧
    (levels ≠ [] → 0 < mid →
      popVariance (levels.map (fun l => l.2)) ≠ 0 →
      ((∀ l, l ∈ computeZScoreOutliers levels mid ↔ l ∈ levels ∧
          ((OUTLIER_Z : ℝ) ≤
            ((l.2 : ℝ) - ((popMean (levels.map (fun l => l.2)) : ℚ) : ℝ)) /
              Real.sqrt ((popVariance (levels.map (fun l => l.2)) : ℚ) : ℝ))) ∧
        (computeZScoreOutliers levels mid).length
          = levels.countP (fun l =>
              zGE l.2 (popMean (levels.map (fun l => l.2)))
                (popVariance (levels.map (fun l => l.2))) OUTLIER_Z))) := by
  constructor
  · exact computeZScoreOutliers_degenerate levels mid
  · intro hne hmid hvar
    have h1 : ¬(levels.length = 0 ∨ mid ≤ 0) := by
      push_neg
      exact ⟨by simpa using hne, hmid⟩
    have hv : 0 < popVariance (levels.map (fun l => l.2)) :=
      lt_of_le_of_ne (popVariance_nonneg _) (Ne.symm hvar)
    rw [computeZScoreOutliers_filter levels mid h1 hvar]
    constructor
    · intro l
      rw [List.mem_filter]
      constructor
      · rintro ⟨hl, hz⟩
        exact ⟨hl, (zGE_iff_real _ _ _ _ hv (by norm_num [OUTLIER_Z])).mp hz⟩
      · rintro ⟨hl, hz⟩
        exact ⟨hl, (zGE_iff_real _ _ _ _ hv (by norm_num [OUTLIER_Z])).mpr hz⟩
    · rw [List.countP_eq_length_filter]

/-- The 17-level side (sixteen size-1 levels and one size-5 level) whose
largest z-score is exactly 4. -/
def exC1 : List (ℚ × ℚ) := List.replicate 16 (1, 1) ++ [(2, 5)]

/-- C1 counterexample: on `exC1` with `mid = 1` the detector emits one
record (the size-5 level, `z = 4`), while the number of levels with
`z ≥ 5` is zero — refuting the claimed threshold of 5. -/
theorem C1_outlier_threshold_counterexample :
    (computeZScoreOutliers exC1 1).length = 1 ∧
    exC1.countP (fun l =>
      zGE l.2 (popMean (exC1.map (fun l => l.2)))
        (popVariance (exC1.map (fun l => l.2))) 5) = 0 := by
  constructor
  · norm_num [exC1, computeZScoreOutliers, popMean, popVariance, zGE,
      OUTLIER_Z, List.replicate, List.filter]
  · norm_num [exC1, popMean, popVariance, zGE, List.replicate,
      List.countP, List.countP.go]

/-- Witness for C1 on the concrete side `exC1`. -/
theorem C1_outlier_threshold_witness :
    (computeZScoreOutliers exC1 1).length
      = exC1.countP (fun l =>
          zGE l.2 (popMean (exC1.map (fun l => l.2)))
            (popVariance (exC1.map (fun l => l.2))) OUTLIER_Z) :=
  ((C1_outlier_threshold exC1 1).2 (by simp [exC1]) (by norm_num)
    (by norm_num [exC1, popVariance, popMean, List.replicate])).2

lemma compareSide_mem (prev next : List (ℚ × ℚ)) (mid b w f : ℚ)
    (m : LevelMove) :
    m ∈ compareSide prev next mid b w f ↔
      ∃ l ∈ next,
        l.2 - prevSizeOf prev l.1 ≠ 0 ∧
        minNotionalOf next mid b w f ≤ |l.2 - prevSizeOf prev l.1| * l.1 ∧
        m = ⟨l.1, prevSizeOf prev l.1, l.2, l.2 - prevSizeOf prev l.1,
            |l.2 - prevSizeOf prev l.1| * l.1, |l.1 - mid| / mid * 10000⟩ := by
  simp only [compareSide, List.mem_mergeSort, List.mem_filterMap]
  constructor
  · rintro ⟨l, hl, hf⟩
    by_cases h1 : l.2 - prevSizeOf prev l.1 = 0
    · rw [if_pos h1] at hf
      exact absurd hf (by simp)
    · rw [if_neg h1] at hf
      by_cases h2 : |l.2 - prevSizeOf prev l.1| * l.1
          < minNotionalOf next mid b w f
      · rw [if_pos h2] at hf
        exact absurd hf (by simp)
      · rw [if_neg h2] at hf
        exact ⟨l, hl, h1, not_lt.mp h2, (Option.some_injective _ hf).symm⟩
  · rintro ⟨l, hl, h1, h2, rfl⟩
    refine ⟨l, hl, ?_⟩
    rw [if_neg h1, if_neg (not_lt.mpr h2)]

/-- C4 counterexample: with previous asks `[(101,500)]` and next asks
`[(102,300)]` at `mid = 100`, the vanished level at price 101 has a
non-zero size delta whose notional `500·101 = 50500` meets the
qualification threshold, yet only price 102 is reported — the scan
ranges over next-book levels only. -/
theorem C4_large_move_counterexample :
    (compareSide [(101, 500)] [(102, 300)] 100 30000 200 2000).map
        (fun m => m.price) = [102] ∧
    ((0 : ℚ) - 500 ≠ 0) ∧
    minNotionalOf [(102, 300)] 100 30000 200 2000
      ≤ |(0 : ℚ) - 500| * 101 := by
  refine ⟨?_, by norm_num, ?_⟩
  · norm_num [compareSide, prevSizeOf, minNotionalOf, windowLevelCount,
      List.filter, List.filterMap_cons, List.mergeSort_singleton]
  · norm_num [minNotionalOf, windowLevelCount, List.filter]

/-- C4 (amended): large-move detection reports exactly the price levels
of the **next** book with non-zero size delta whose
`notionalDelta = |Δsize|·price` is at least
`max(baseMmNotional / max(1, windowLevels), largeMoveNotionalFloor)`;
on the spec's concrete data (`mid = 100`, prev asks `[(101,50)]`) the
next book `[(101,200)]` yields no report and `[(101,500)]` is reported
with `deltaSize = 450` and `bpsFromMid = 100`. -/
theorem C4_large_move_qualification :
    (∀ (prev next : List (ℚ × ℚ)) (mid b w f : ℚ) (m : LevelMove),
      m ∈ compareSide prev next mid b w f ↔
        ∃ l ∈ next,
          l.2 - prevSizeOf prev l.1 ≠ 0 ∧
          minNotionalOf next mid b w f ≤ |l.2 - prevSizeOf prev l.1| * l.1 ∧
          m = ⟨l.1, prevSizeOf prev l.1, l.2, l.2 - prevSizeOf prev l.1,
              |l.2 - prevSizeOf prev l.1| * l.1,
              |l.1 - mid| / mid * 10000⟩) ∧
    compareSide [(101, 50)] [(101, 200)] 100 30000 200 2000 = [] ∧
    compareSide [(101, 50)] [(101, 500)] 100 30000 200 2000
      = [⟨101, 50, 500, 450, 45450, 100⟩] := by
  refine ⟨compareSide_mem, ?_, ?_⟩
  · norm_num [compareSide, prevSizeOf, minNotionalOf, windowLevelCount,
      List.filter, List.filterMap_cons, List.mergeSort_nil]
  · norm_num [compareSide, prevSizeOf, minNotionalOf, windowLevelCount,
      List.filter, List.filterMap_cons, List.mergeSort_singleton]

lemma mem_zip_self_map {α β : Type} (f : α → β) :
    ∀ (l : List α) (pq : α × β), pq ∈ l.zip (l.map f) →
      pq.1 ∈ l ∧ pq.2 = f pq.1 := by
  intro l
  induction l with
  | nil => intro pq h; simp at h
  | cons x xs ih =>
      intro pq h
      rw [List.map_cons, List.zip_cons_cons] at h
      rcases List.mem_cons.mp h with h1 | h2
      · subst h1
        exact ⟨by simp, rfl⟩
      · obtain ⟨h3, h4⟩ := ih pq h2
        exact ⟨by simp [h3], h4⟩

/-- C3: `OutlierSpanTracker.recordTrade` preserves the active keys and,
for spans and trades with positive prices, bumps the trade counters of
exactly the spans matching the trade's `(symbol, market, exchange)`
(exchange case-insensitively) whose price is within 5 bps of the trade
price using `mid = (spanPrice + tradePrice)/2`; every other span —
in particular any span more than 5 bps away — is left unchanged. -/
theorem C3_record_trade
    (active : List (OutlierSpanTracker.SpanKey × OutlierSpanTracker.ActiveSpan))
    (input : OutlierSpanTracker.TradeInput)
    (hp : 0 < input.price)
    (ha : ∀ p ∈ active, 0 < p.2.price) :
    (OutlierSpanTracker.recordTrade active input).length = active.length ∧
    ∀ pq ∈ active.zip (OutlierSpanTracker.recordTrade active input),
      pq.2.1 = pq.1.1 ∧
      ((pq.1.2.symbol = input.symbol ∧ pq.1.2.market = input.market ∧
        pq.1.2.exchange.toLower = input.exchange.toLower ∧
        |pq.1.2.price - input.price|
            / ((pq.1.2.price + input.price) / 2) * 10000 ≤ 5) →
          pq.2.2 = OutlierSpanTracker.bumpTrade pq.1.2 input) ∧
      (¬(pq.1.2.symbol = input.symbol ∧ pq.1.2.market = input.market ∧
         pq.1.2.exchange.toLower = input.exchange.toLower ∧
         |pq.1.2.price - input.price|
             / ((pq.1.2.price + input.price) / 2) * 10000 ≤ 5) →
          pq.2.2 = pq.1.2) := by
  constructor
  · exact List.length_map active _
  · intro pq hpq
    rw [OutlierSpanTracker.recordTrade] at hpq
    obtain ⟨hmem, heq⟩ := mem_zip_self_map _ active pq hpq
    simp only [] at heq
    have hmid : 0 < (pq.1.2.price + input.price) / 2 := by
      have := ha pq.1 hmem
      linarith
    by_cases hc1 : pq.1.2.exchange.toLower = input.exchange.toLower ∧
        pq.1.2.symbol = input.symbol ∧ pq.1.2.market = input.market
    · by_cases hc2 : |pq.1.2.price - input.price|
          / ((pq.1.2.price + input.price) / 2) * 10000 ≤ 5
      · rw [if_pos hc1, if_pos ⟨hmid, hc2⟩] at heq
        refine ⟨by rw [heq], fun _ => by rw [heq], fun hC => ?_⟩
        exact absurd ⟨hc1.2.1, hc1.2.2, hc1.1, hc2⟩ hC
      · rw [if_pos hc1, if_neg (fun h => hc2 h.2)] at heq
        refine ⟨by rw [heq], fun hC => ?_, fun _ => by rw [heq]⟩
        exact absurd hC.2.2.2 hc2
    · rw [if_neg hc1] at heq
      refine ⟨by rw [heq], fun hC => ?_, fun _ => by rw [heq]⟩
      exact absurd ⟨hC.2.2.1, hC.1, hC.2.1⟩ hc1

/-- A concrete active span used by the C3 and C2 witnesses. -/
def exSpan : OutlierSpanTracker.ActiveSpan :=
  ⟨0, 0, 6, 6, 1, "SYM", "Spot", "bybit", "Bid", 100, 500, 500, 0, 0, 0⟩

/-- The key of `exSpan`. -/
def exKey : OutlierSpanTracker.SpanKey := ⟨"SYM", "Spot", "bybit", "Bid", 100⟩

/-- A concrete trade at the span price. -/
def exTrade : OutlierSpanTracker.TradeInput :=
  ⟨0, "SYM", "Spot", "bybit", 100, 25, OutlierSpanTracker.TradeSide.buy⟩

/-- Witness for C3 at a one-span active map with an at-price trade. -/
theorem C3_record_trade_witness :
    (OutlierSpanTracker.recordTrade [(exKey, exSpan)] exTrade).length = 1 ∧
    ∀ pq ∈ [(exKey, exSpan)].zip
        (OutlierSpanTracker.recordTrade [(exKey, exSpan)] exTrade),
      pq.2.2 = OutlierSpanTracker.bumpTrade pq.1.2 exTrade := by
  have h := C3_record_trade [(exKey, exSpan)] exTrade
    (by norm_num [exTrade])
    (by
      intro p hp
      have hp' : p = (exKey, exSpan) := by simpa using hp
      rw [hp']
      norm_num [exSpan])
  refine ⟨h.1, ?_⟩
  intro pq hpq
  have h1 : pq.1 = (exKey, exSpan) := by
    have := (List.of_mem_zip hpq).1
    simpa using this
  apply (h.2 pq hpq).2.1
  rw [h1]
  refine ⟨rfl, rfl, rfl, ?_⟩
  norm_num [exSpan, exTrade]

namespace OutlierSpanTracker

/-- The inductive invariant carried by every reachable active span:
its timestamps are ordered, it has seen at least one record, and its
z-score sum is dominated by `count · maxZ`. -/
def SpanCore (a : ActiveSpan) : Prop :=
  a.startTs ≤ a.lastTs ∧ 1 ≤ a.count ∧ a.sumZ ≤ (a.count : ℚ) * a.maxZ

/-- The C2 invariants of a closed span record. -/
def ClosedOK (c : ClosedSpan) : Prop :=
  c.startTs ≤ c.endTs ∧ 1 ≤ c.count ∧ 0 ≤ c.filledPct ∧ c.filledPct ≤ 1 ∧
  c.avgZ ≤ c.maxZ ∧ (c.endSize ≤ c.startSize → c.sizeDelta ≤ 0)

lemma closeSpan_ok (a : ActiveSpan) (h : SpanCore a) :
    ClosedOK (closeSpan a) := by
  obtain ⟨h1, h2, h3⟩ := h
  refine ⟨h1, h2, ?_, ?_, ?_, ?_⟩
  · simp only [closeSpan]
    split
    · exact le_min (by norm_num) (le_max_left 0 _)
    · exact le_refl 0
  · simp only [closeSpan]
    split
    · exact min_le_left 1 _
    · norm_num
  · simp only [closeSpan]
    have hc : max 1 a.count = a.count := Nat.max_eq_right h2
    rw [hc]
    have hcq : (0 : ℚ) < (a.count : ℚ) := by exact_mod_cast h2
    rw [div_le_iff₀ hcq]
    linarith [h3]
  · simp only [closeSpan]
    intro h4
    linarith

lemma pass1_core :
    ∀ (rs rest : List InputRecord) (active : List (SpanKey × ActiveSpan))
      (seen : List SpanKey),
    (∀ p ∈ active, SpanCore p.2 ∧ ∀ r0 ∈ rs ++ rest, p.2.lastTs ≤ r0.ts) →
    (rs ++ rest).Pairwise (fun a b => a.ts ≤ b.ts) →
    ∀ p ∈ (pass1 active seen rs).1,
      SpanCore p.2 ∧ ∀ r0 ∈ rest, p.2.lastTs ≤ r0.ts := by
  intro rs
  induction rs with
  | nil =>
      intro rest active seen hInv hPair p hp
      obtain ⟨h1, h2⟩ := hInv p hp
      exact ⟨h1, fun r0 hr0 => h2 r0 (by simpa using hr0)⟩
  | cons r rs' ih =>
      intro rest active seen hInv hPair
      rw [List.cons_append] at hPair
      have hHead := (List.pairwise_cons.mp hPair).1
      have hPair' := (List.pairwise_cons.mp hPair).2
      simp only [pass1]
      by_cases hk : jhas active (keyOf r)
      · rw [if_pos hk]
        apply ih rest _ _ ?_ hPair'
        intro p hp
        obtain ⟨q, hq, hqe⟩ := List.mem_map.mp hp
        obtain ⟨⟨hs1, hs2, hs3⟩, hbound⟩ := hInv q hq
        by_cases hq1 : q.1 = keyOf r
        · rw [if_pos hq1] at hqe
          rw [← hqe]
          have hrts : q.2.lastTs ≤ r.ts := hbound r (by simp)
          refine ⟨⟨?_, ?_, ?_⟩, ?_⟩
          · simp only [extendSpan]
            exact le_trans hs1 hrts
          · simp only [extendSpan]
            omega
          · simp only [extendSpan]
            push_cast
            by_cases hmz : q.2.maxZ < r.zScore
            · rw [if_pos hmz]
              have hcount : (0 : ℚ) ≤ (q.2.count : ℚ) := by positivity
              have : (q.2.count : ℚ) * q.2.maxZ ≤ (q.2.count : ℚ) * r.zScore :=
                mul_le_mul_of_nonneg_left hmz.le hcount
              linarith
            · rw [if_neg hmz]
              have hz : r.zScore ≤ q.2.maxZ := not_lt.mp hmz
              linarith
          · intro r0 hr0
            simp only [extendSpan]
            exact hHead r0 hr0
        · rw [if_neg hq1] at hqe
          rw [← hqe]
          exact ⟨⟨hs1, hs2, hs3⟩,
            fun r0 hr0 => hbound r0 (by
              rcases List.mem_append.mp hr0 with h | h
              · exact List.mem_append_left _ (by simp [h])
              · exact List.mem_append_right _ h)⟩
      · rw [if_neg hk]
        apply ih rest _ _ ?_ hPair'
        intro p hp
        rcases List.mem_append.mp hp with h1 | h2
        · obtain ⟨hs, hbound⟩ := hInv p h1
          exact ⟨hs, fun r0 hr0 => hbound r0 (by
            rcases List.mem_append.mp hr0 with h | h
            · exact List.mem_append_left _ (by simp [h])
            · exact List.mem_append_right _ h)⟩
        · have hp2 : p = (keyOf r, newSpan r) := by simpa using h2
          rw [hp2]
          refine ⟨⟨le_refl _, le_refl _, ?_⟩, ?_⟩
          · simp [newSpan]
          · intro r0 hr0
            simp only [newSpan]
            exact hHead r0 hr0

lemma update_ok (active : List (SpanKey × ActiveSpan))
    (c rest : List InputRecord)
    (hInv : ∀ p ∈ active, SpanCore p.2 ∧ ∀ r0 ∈ c ++ rest, p.2.lastTs ≤ r0.ts)
    (hPair : (c ++ rest).Pairwise (fun a b => a.ts ≤ b.ts)) :
    (∀ p ∈ (update active c).1,
      SpanCore p.2 ∧ ∀ r0 ∈ rest, p.2.lastTs ≤ r0.ts) ∧
    (∀ cs ∈ (update active c).2, ClosedOK cs) := by
  have h1 := pass1_core c rest active [] hInv hPair
  constructor
  · intro p hp
    exact h1 p (List.mem_of_mem_filter hp)
  · intro cs hcs
    obtain ⟨p, hp, hpe⟩ := List.mem_map.mp hcs
    rw [← hpe]
    exact closeSpan_ok p.2 (h1 p (List.mem_of_mem_filter hp)).1

lemma updateSeq_ok :
    ∀ (calls : List (List InputRecord))
      (active : List (SpanKey × ActiveSpan)),
    (∀ p ∈ active, SpanCore p.2 ∧
      ∀ r0 ∈ calls.flatten, p.2.lastTs ≤ r0.ts) →
    calls.flatten.Pairwise (fun a b => a.ts ≤ b.ts) →
    ∀ cs ∈ (updateSeq active calls).2, ClosedOK cs := by
  intro calls
  induction calls with
  | nil =>
      intro active _ _ cs hcs
      simp [updateSeq] at hcs
  | cons c cs' ih =>
      intro active hInv hPair cs hcs
      rw [List.flatten_cons] at hInv hPair
      obtain ⟨hI, hC⟩ := update_ok active c cs'.flatten hInv hPair
      simp only [updateSeq] at hcs
      rcases List.mem_append.mp hcs with h1 | h2
      · exact hC cs h1
      · exact ih _ hI ((List.pairwise_append.mp hPair).2.1) cs h2

end OutlierSpanTracker

/-- C2 (amended): for every sequence of `update` calls whose candidate
records carry non-decreasing timestamps, every closed `OutlierSpan`
appended to the store satisfies `endTs ≥ startTs`, `count ≥ 1`,
`filledPct ∈ [0,1]`, `avgZ ≤ maxZ` and
`endSize ≤ startSize → sizeDelta ≤ 0`.  (Records with decreasing
timestamps — which the single-threaded tick loop never produces —
violate `endTs ≥ startTs`; see the counterexample.) -/
theorem C2_closed_span_invariants (calls : List (List OutlierSpanTracker.InputRecord))
    (hsorted : calls.flatten.Pairwise (fun a b => a.ts ≤ b.ts)) :
    ∀ cs ∈ (OutlierSpanTracker.updateSeq [] calls).2,
      cs.startTs ≤ cs.endTs ∧ 1 ≤ cs.count ∧
      0 ≤ cs.filledPct ∧ cs.filledPct ≤ 1 ∧
      cs.avgZ ≤ cs.maxZ ∧ (cs.endSize ≤ cs.startSize → cs.sizeDelta ≤ 0) :=
  OutlierSpanTracker.updateSeq_ok calls []
    (by intro p hp; simp at hp) hsorted

/-- A first candidate record (ts = 100). -/
def exRecA : OutlierSpanTracker.InputRecord :=
  ⟨100, "SYM", "Spot", "bybit", "Bid", 100, 6, 500⟩

/-- A same-key candidate record with an earlier timestamp (ts = 50). -/
def exRecB : OutlierSpanTracker.InputRecord :=
  ⟨50, "SYM", "Spot", "bybit", "Bid", 100, 7, 450⟩

/-- C2 counterexample: with arbitrary candidate records the claim fails —
extending a span with a record whose timestamp precedes the span start
and then closing it yields a stored span with `endTs = 50 < 100 =
startTs`. -/
theorem C2_closed_span_counterexample :
    ¬ ∀ cs ∈ (OutlierSpanTracker.updateSeq [] [[exRecA, exRecB], []]).2,
        cs.startTs ≤ cs.endTs := by
  have heval : (OutlierSpanTracker.updateSeq [] [[exRecA, exRecB], []]).2.map
      (fun c => (c.startTs, c.endTs)) = [((100 : ℤ), (50 : ℤ))] := by
    norm_num [OutlierSpanTracker.updateSeq, OutlierSpanTracker.update,
      OutlierSpanTracker.pass1, OutlierSpanTracker.keyOf,
      OutlierSpanTracker.newSpan, OutlierSpanTracker.extendSpan,
      OutlierSpanTracker.closeSpan, jhas, exRecA, exRecB]
  intro h
  cases hL : (OutlierSpanTracker.updateSeq [] [[exRecA, exRecB], []]).2 with
  | nil => rw [hL] at heval; simp at heval
  | cons c0 restL =>
      rw [hL] at heval
      simp only [List.map_cons] at heval
      have hc0 : (c0.startTs, c0.endTs) = ((100 : ℤ), (50 : ℤ)) :=
        (List.cons.injEq _ _ _ _ ▸ heval).1
      have hmem : c0 ∈ (OutlierSpanTracker.updateSeq []
          [[exRecA, exRecB], []]).2 := by
        rw [hL]; exact List.mem_cons_self c0 restL
      have := h c0 hmem
      rw [(Prod.mk.injEq _ _ _ _).mp hc0 |>.1,
        (Prod.mk.injEq _ _ _ _).mp hc0 |>.2] at this
      omega

/-- Witness for C2 on a single-record run. -/
theorem C2_closed_span_invariants_witness :
    (([[exRecA], []] : List (List OutlierSpanTracker.InputRecord)).flatten.Pairwise
      (fun a b => a.ts ≤ b.ts)) ∧
    ∀ cs ∈ (OutlierSpanTracker.updateSeq [] [[exRecA], []]).2,
      cs.startTs ≤ cs.endTs ∧ 1 ≤ cs.count ∧
      0 ≤ cs.filledPct ∧ cs.filledPct ≤ 1 ∧
      cs.avgZ ≤ cs.maxZ ∧ (cs.endSize ≤ cs.startSize → cs.sizeDelta ≤ 0) :=
  ⟨by simp, C2_closed_span_invariants [[exRecA], []] (by simp)⟩

lemma jhas_iff_mem_keys {α β : Type} [DecidableEq α] {m : List (α × β)}
    {k : α} : jhas m k = true ↔ k ∈ m.map (fun p => p.1) := by
  simp [jhas, List.mem_map]

lemma map_fst_filter_key {α β : Type} (l : List (α × β)) (q : α → Bool) :
    (l.filter (fun p => q p.1)).map (fun p => p.1)
      = (l.map (fun p => p.1)).filter q := by
  induction l with
  | nil => rfl
  | cons x xs ih =>
      by_cases h : q x.1
      · simp [List.filter_cons, h, ih]
      · simp [List.filter_cons, h, ih]

namespace OutlierSpanTracker

lemma extend_map_keys (active : List (SpanKey × ActiveSpan))
    (r : InputRecord) :
    (active.map (fun p =>
        if p.1 = keyOf r then (p.1, extendSpan p.2 r) else p)).map
      (fun p => p.1) = active.map (fun p => p.1) := by
  rw [List.map_map]
  apply List.map_congr_left
  intro p hp
  by_cases h : p.1 = keyOf r <;> simp [h]

lemma pass1_seen :
    ∀ (rs : List InputRecord) (active : List (SpanKey × ActiveSpan))
      (seen : List SpanKey),
    (pass1 active seen rs).2 = seen ++ rs.map keyOf := by
  intro rs
  induction rs with
  | nil => intro active seen; simp [pass1]
  | cons r rs' ih =>
      intro active seen
      simp only [pass1]
      by_cases hk : jhas active (keyOf r)
      · rw [if_pos hk, ih]
        simp
      · rw [if_neg hk, ih]
        simp

lemma pass1_jhas :
    ∀ (rs : List InputRecord) (active : List (SpanKey × ActiveSpan))
      (seen : List SpanKey) (k : SpanKey),
    (jhas (pass1 active seen rs).1 k = true ↔
      jhas active k = true ∨ k ∈ rs.map keyOf) := by
  intro rs
  induction rs with
  | nil => intro active seen k; simp [pass1]
  | cons r rs' ih =>
      intro active seen k
      simp only [pass1]
      by_cases hk : jhas active (keyOf r)
      · rw [if_pos hk, ih]
        have hkeys : jhas (active.map (fun p =>
            if p.1 = keyOf r then (p.1, extendSpan p.2 r) else p)) k
            = jhas active k := by
          by_cases hh : jhas active k
          · rw [hh, jhas_iff_mem_keys, extend_map_keys]
            exact jhas_iff_mem_keys.mp hh
          · have hh' : jhas active k = false := by
              simpa using hh
            rw [hh']
            by_contra hcon
            have : jhas (active.map (fun p =>
                if p.1 = keyOf r then (p.1, extendSpan p.2 r) else p)) k
                = true := by
              simpa using hcon
            rw [jhas_iff_mem_keys, extend_map_keys] at this
            exact hh (jhas_iff_mem_keys.mpr this)
        rw [hkeys]
        simp only [List.map_cons, List.mem_cons]
        constructor
        · rintro (h | h)
          · exact Or.inl h
          · exact Or.inr (Or.inr h)
        · rintro (h | h | h)
          · exact Or.inl h
          · exact Or.inl (h ▸ hk)
          · exact Or.inr h
      · rw [if_neg hk, ih]
        have happ : jhas (active ++ [(keyOf r, newSpan r)]) k = true ↔
            jhas active k = true ∨ keyOf r = k := by
          simp [jhas]
        rw [happ]
        simp only [List.map_cons, List.mem_cons]
        constructor
        · rintro ((h | h) | h)
          · exact Or.inl h
          · exact Or.inr (Or.inl h.symm)
          · exact Or.inr (Or.inr h)
        · rintro (h | h | h)
          · exact Or.inl (Or.inl h)
          · exact Or.inl (Or.inr h.symm)
          · exact Or.inr h

lemma pass1_keys :
    ∀ (rs : List InputRecord) (active : List (SpanKey × ActiveSpan))
      (seen : List SpanKey),
    ∃ added : List SpanKey,
      ((pass1 active seen rs).1).map (fun p => p.1)
        = active.map (fun p => p.1) ++ added ∧
      ∀ k ∈ added, k ∈ rs.map keyOf := by
  intro rs
  induction rs with
  | nil =>
      intro active seen
      exact ⟨[], by simp [pass1], by simp⟩
  | cons r rs' ih =>
      intro active seen
      simp only [pass1]
      by_cases hk : jhas active (keyOf r)
      · rw [if_pos hk]
        obtain ⟨added, h1, h2⟩ := ih _ (seen ++ [keyOf r])
        refine ⟨added, ?_, ?_⟩
        · rw [h1, extend_map_keys]
        · intro k hk'
          simp only [List.map_cons, List.mem_cons]
          exact Or.inr (h2 k hk')
      · rw [if_neg hk]
        obtain ⟨added, h1, h2⟩ := ih _ (seen ++ [keyOf r])
        refine ⟨keyOf r :: added, ?_, ?_⟩
        · rw [h1, List.map_append]
          simp
        · intro k hk'
          rcases List.mem_cons.mp hk' with h | h
          · simp [h]
          · simp only [List.map_cons, List.mem_cons]
            exact Or.inr (h2 k h)

lemma pass1_consistent :
    ∀ (rs : List InputRecord) (active : List (SpanKey × ActiveSpan))
      (seen : List SpanKey),
    (∀ p ∈ active, p.1 = spanKey p.2) →
    ∀ p ∈ (pass1 active seen rs).1, p.1 = spanKey p.2 := by
  intro rs
  induction rs with
  | nil =>
      intro active seen h p hp
      simp only [pass1] at hp
      exact h p hp
  | cons r rs' ih =>
      intro active seen h
      simp only [pass1]
      by_cases hk : jhas active (keyOf r)
      · rw [if_pos hk]
        apply ih
        intro p hp
        obtain ⟨q, hq, hqe⟩ := List.mem_map.mp hp
        by_cases hq1 : q.1 = keyOf r
        · rw [if_pos hq1] at hqe
          rw [← hqe]
          exact h q hq
        · rw [if_neg hq1] at hqe
          rw [← hqe]
          exact h q hq
      · rw [if_neg hk]
        apply ih
        intro p hp
        rcases List.mem_append.mp hp with h1 | h2
        · exact h p h1
        · have hp2 : p = (keyOf r, newSpan r) := by simpa using h2
          rw [hp2]
          rfl

lemma closedKey_closeSpan (a : ActiveSpan) :
    closedKey (closeSpan a) = spanKey a := rfl

lemma update_closed_keys (active : List (SpanKey × ActiveSpan))
    (records : List InputRecord)
    (hcons : ∀ p ∈ active, p.1 = spanKey p.2) :
    (update active records).2.map closedKey
      = (active.map (fun p => p.1)).filter
          (fun k => decide (k ∉ records.map keyOf)) := by
  have hseen := pass1_seen records active []
  rw [List.nil_append] at hseen
  have hcons1 := pass1_consistent records active [] hcons
  obtain ⟨added, hkeys, haddmem⟩ := pass1_keys records active []
  simp only [update, List.map_map]
  rw [hseen]
  have hstep1 : ((pass1 active [] records).1.filter
        (fun p => decide (p.1 ∉ records.map keyOf))).map
      (closedKey ∘ fun p => closeSpan p.2)
      = ((pass1 active [] records).1.filter
        (fun p => decide (p.1 ∉ records.map keyOf))).map (fun p => p.1) := by
    apply List.map_congr_left
    intro p hp
    show closedKey (closeSpan p.2) = p.1
    rw [closedKey_closeSpan]
    exact (hcons1 p (List.mem_of_mem_filter hp)).symm
  have hmf := map_fst_filter_key (OutlierSpanTracker.pass1 active [] records).1
    (fun k => decide (k ∉ records.map OutlierSpanTracker.keyOf))
  rw [hstep1, hmf, hkeys, List.filter_append]
  have hadded : added.filter (fun k => decide (k ∉ records.map keyOf)) = [] := by
    rw [List.filter_eq_nil_iff]
    intro a ha
    simp [haddmem a ha]
  rw [hadded, List.append_nil]

end OutlierSpanTracker

/-- C10: after any `OutlierSpanTracker.update(records)` call on a
well-formed active map (keys distinct and consistent with the span
fields), the resulting active keys are exactly the keys of `records`;
the spans appended to the store are exactly — in map order — the
previously active keys absent from `records`, hence each such key is
closed exactly once, and no other span is closed. -/
theorem C10_active_key_lifecycle
    (active : List (OutlierSpanTracker.SpanKey × OutlierSpanTracker.ActiveSpan))
    (records : List OutlierSpanTracker.InputRecord)
    (hcons : ∀ p ∈ active, p.1 = OutlierSpanTracker.spanKey p.2)
    (hnodup : (active.map (fun p => p.1)).Nodup) :
    (∀ k, jhas (OutlierSpanTracker.update active records).1 k = true ↔
        k ∈ records.map OutlierSpanTracker.keyOf) ∧
    ((OutlierSpanTracker.update active records).2.map
        OutlierSpanTracker.closedKey
      = (active.map (fun p => p.1)).filter
          (fun k => decide (k ∉ records.map OutlierSpanTracker.keyOf))) ∧
    (∀ k, k ∈ active.map (fun p => p.1) →
      k ∉ records.map OutlierSpanTracker.keyOf →
      ((OutlierSpanTracker.update active records).2.map
          OutlierSpanTracker.closedKey).count k = 1) := by
  have hseen := OutlierSpanTracker.pass1_seen records active []
  rw [List.nil_append] at hseen
  have hckeys := OutlierSpanTracker.update_closed_keys active records hcons
  refine ⟨?_, hckeys, ?_⟩
  · intro k
    simp only [OutlierSpanTracker.update]
    constructor
    · intro h
      rw [jhas_iff_mem_keys] at h
      obtain ⟨p, hp, hpk⟩ := List.mem_map.mp h
      have hpf := List.mem_filter.mp hp
      have hpin : p.1 ∈ (OutlierSpanTracker.pass1 active [] records).2 := by
        simpa using hpf.2
      rw [hseen] at hpin
      rw [← hpk]
      exact hpin
    · intro h
      have hj : jhas (OutlierSpanTracker.pass1 active [] records).1 k = true :=
        (OutlierSpanTracker.pass1_jhas records active [] k).mpr (Or.inr h)
      rw [jhas_iff_mem_keys] at hj ⊢
      obtain ⟨p, hp, hpk⟩ := List.mem_map.mp hj
      refine List.mem_map.mpr ⟨p, ?_, hpk⟩
      rw [List.mem_filter]
      refine ⟨hp, ?_⟩
      simp only [hseen, hpk, decide_eq_true_eq]
      exact h
  · intro k hk1 hk2
    rw [hckeys]
    refine List.count_eq_one_of_mem (hnodup.filter _) ?_
    rw [List.mem_filter]
    exact ⟨hk1, by simpa using hk2⟩

/-- Witness for C10: updating a one-span active map with no records
closes that span exactly once. -/
theorem C10_active_key_lifecycle_witness :
    ((OutlierSpanTracker.update [(exKey, exSpan)] []).2.map
        OutlierSpanTracker.closedKey).count exKey = 1 :=
  (C10_active_key_lifecycle [(exKey, exSpan)] []
    (by
      intro p hp
      have hp2 : p = (exKey, exSpan) := by simpa using hp
      rw [hp2]
      rfl)
    (by simp)).2.2 exKey (by simp) (by simp)

/-- C9 counterexample: on the crossed input `bids = [(101,1)]`,
`asks = [(100,1)]` the produced point has `mid = 201/2 < bestBid`,
refuting `bestBid ≤ mid ≤ bestAsk` for arbitrary non-empty sides. -/
theorem C9_mid_counterexample :
    ∃ mp, computeMetrics "S" [(101, 1)] [(100, 1)] 1 []
        ⟨emptySideStats, emptySideStats⟩ = some mp ∧
      mp.bestBid = 101 ∧ mp.bestAsk = 100 ∧ mp.mid = 201 / 2 ∧
      ¬(mp.bestBid ≤ mp.mid) := by
  refine ⟨_, rfl, rfl, rfl, by norm_num, by norm_num⟩

/-- C9 (amended): every `MetricsPoint` produced by `computeMetrics` has
`mid = (bestBid + bestAsk)/2`, and when the book is uncrossed
(`bestBid ≤ bestAsk`) also `bestBid ≤ mid ≤ bestAsk`. -/
theorem C9_mid_between (symbol : String) (bids asks : List (ℚ × ℚ))
    (base : ℚ) (bins : List ℚ) (ms : MoveStats) (mp : MetricsPoint)
    (h : computeMetrics symbol bids asks base bins ms = some mp) :
    mp.mid = (mp.bestBid + mp.bestAsk) / 2 ∧
    (mp.bestBid ≤ mp.bestAsk → mp.bestBid ≤ mp.mid ∧ mp.mid ≤ mp.bestAsk) := by
  match bids, asks with
  | [], _ => exact absurd h (by simp [computeMetrics])
  | _ :: _, [] => exact absurd h (by simp [computeMetrics])
  | b0 :: brest, a0 :: arest =>
      rw [computeMetrics] at h
      have hmp := (Option.some_injective _ h).symm
      subst hmp
      refine ⟨rfl, fun hle => ⟨?_, ?_⟩⟩ <;>
        · simp only []
          linarith

/-- Witness for C9 at a concrete uncrossed book pair. -/
theorem C9_mid_between_witness :
    ∃ mp, computeMetrics "S" [(1, 1)] [(2, 1)] 1 []
        ⟨emptySideStats, emptySideStats⟩ = some mp ∧
      mp.mid = (mp.bestBid + mp.bestAsk) / 2 ∧
      mp.bestBid ≤ mp.mid ∧ mp.mid ≤ mp.bestAsk := by
  refine ⟨_, rfl, ?_⟩
  have h := C9_mid_between "S" [(1, 1)] [(2, 1)] 1 []
    ⟨emptySideStats, emptySideStats⟩ _ rfl
  exact ⟨h.1, h.2 (by norm_num)⟩
